import Mathlib

/-!
# Verification of godepmon against its specification

Shallow embedding of the godepmon source (dependency walker, debounced
file watcher, process supervisor, argument processing) together with
proofs about the embedded definitions.

Conventions:
* Go maps keyed by package path are modelled as lists of `Package`
  looked up by `lookup`; the `imports` visited-map of `DepWalker.visitAll`
  is modelled as the list of admitted package paths (insertion order).
* OS-level effects (spawning a process, sending a signal, filesystem
  subscription) are modelled as oracle parameters; the embedded
  functions describe exactly the branching of the source on those
  outcomes.  Program state the source branches on (`cmd.ProcessState`,
  the readers blocked on the `done` channel) is carried in the state
  types, not free oracles.
* Real time is modelled discretely by natural-number instants; a pending
  `time.AfterFunc` timer is its absolute deadline.
-/

namespace Godepmon

/-! ## Dependency walker (gomod.go / the DepWalker in part_000/part_001)

`Package` models `golang.org/x/tools/go/packages.Package` restricted to
the fields the walker uses (`PkgPath`, `GoFiles`, `Imports`, the latter
by package path since `NeedDeps` resolves every import inside the loaded
universe `G`). -/

structure Package where
  pkgPath : String
  goFiles : List String
  imports : List String
deriving DecidableEq, Repr

/-- The loaded package universe: resolving an import path to its
`Package`, as the Go code resolves `pkg.Imports` pointers. -/
def lookup (G : List Package) (id : String) : Option Package :=
  G.find? (fun p => p.pkgPath == id)

/-- The `DepWalker` struct of the source. -/
structure DepWalker where
  module : String
  moduleWithSlash : String
  includeExternalDeps : Bool
deriving DecidableEq, Repr

/-- `strings.HasPrefix` from the Go standard library, on the character
sequences of the strings. -/
def hasPrefix (s : String) (pre : String) : Bool :=
  pre.data.isPrefixOf s.data

/-- `DepWalker.isCandidate` from the source. -/
def isCandidate (dw : DepWalker) (pkgPath : String) : Bool :=
  dw.includeExternalDeps ||
    pkgPath == dw.module ||
    hasPrefix pkgPath dw.moduleWithSlash

/-- All package paths present in the loaded universe. -/
def pkgPaths (G : List Package) : List String :=
  G.map Package.pkgPath

/-- Number of universe package paths not yet in the visited map;
termination measure for `visitAllAux`. -/
def unvisitedCount (G : List Package) (visited : List String) : Nat :=
  ((pkgPaths G).toFinset \ visited.toFinset).card

/-- `DepWalker.visitAll` from the source, over package paths: iterate the
work list; a package already in the visited map, or failing
`isCandidate`, is skipped; otherwise it is admitted and its imports are
traversed before the rest of the work list.  The result carries the
proof that the visited map only grows, which also drives the
termination argument. -/
def visitAllAux (dw : DepWalker) (G : List Package) :
    (ids : List String) → (visited : List String) →
    { out : List String // ∀ x ∈ visited, x ∈ out }
  | [], visited => ⟨visited, fun _ h => h⟩
  | id :: rest, visited =>
    match hl : lookup G id with
    | none => visitAllAux dw G rest visited
    | some pkg =>
      if hv : id ∈ visited then visitAllAux dw G rest visited
      else if hc : isCandidate dw id = true then
        let inner := visitAllAux dw G pkg.imports (id :: visited)
        let outer := visitAllAux dw G rest inner.1
        ⟨outer.1, fun x hx => outer.2 x (inner.2 x (List.mem_cons_of_mem id hx))⟩
      else visitAllAux dw G rest visited
termination_by ids visited => (unvisitedCount G visited, ids.length)
decreasing_by
  · exact Prod.Lex.right _ (Nat.lt_succ_self _)
  · exact Prod.Lex.right _ (Nat.lt_succ_self _)
  · refine Prod.Lex.left _ _ ?_
    have hmem : pkg ∈ G := by
      unfold lookup at hl
      exact List.mem_of_find?_eq_some hl
    have heq : pkg.pkgPath = id := by
      unfold lookup at hl
      simpa using List.find?_some hl
    have hid : id ∈ pkgPaths G := heq ▸ List.mem_map_of_mem Package.pkgPath hmem
    apply Finset.card_lt_card
    constructor
    · apply Finset.sdiff_subset_sdiff (le_refl _)
      intro x hx
      exact List.mem_toFinset.mpr (List.mem_cons_of_mem id (List.mem_toFinset.mp hx))
    · intro hsub
      have hidmem : id ∈ (pkgPaths G).toFinset \ visited.toFinset := by
        simp [List.mem_toFinset, hid, hv]
      have hcontra := hsub hidmem
      simp [List.mem_toFinset] at hcontra
  · refine Prod.Lex.left _ _ ?_
    have hmem : pkg ∈ G := by
      unfold lookup at hl
      exact List.mem_of_find?_eq_some hl
    have heq : pkg.pkgPath = id := by
      unfold lookup at hl
      simpa using List.find?_some hl
    have hid : id ∈ pkgPaths G := heq ▸ List.mem_map_of_mem Package.pkgPath hmem
    have h1 : unvisitedCount G inner.1 ≤ unvisitedCount G (id :: visited) := by
      apply Finset.card_le_card
      apply Finset.sdiff_subset_sdiff (le_refl _)
      intro x hx
      exact List.mem_toFinset.mpr (inner.2 x (List.mem_toFinset.mp hx))
    refine Nat.lt_of_le_of_lt h1 ?_
    apply Finset.card_lt_card
    constructor
    · apply Finset.sdiff_subset_sdiff (le_refl _)
      intro x hx
      exact List.mem_toFinset.mpr (List.mem_cons_of_mem id (List.mem_toFinset.mp hx))
    · intro hsub
      have hidmem : id ∈ (pkgPaths G).toFinset \ visited.toFinset := by
        simp [List.mem_toFinset, hid, hv]
      have hcontra := hsub hidmem
      simp [List.mem_toFinset] at hcontra
  · exact Prod.Lex.right _ (Nat.lt_succ_self _)

/-- The visited map produced by a `visitAll` call, as the list of
admitted package paths. -/
def visitAll (dw : DepWalker) (G : List Package) (ids visited : List String) :
    List String :=
  (visitAllAux dw G ids visited).1

/-- Reachability through candidate packages: `x` can be admitted by a
traversal whose work list is `ids` — it is a candidate present in the
universe, and is either on the work list itself or an import of a
previously admitted candidate. -/
inductive ReachC (dw : DepWalker) (G : List Package) : List String → String → Prop
  | base {ids : List String} {id : String} {pkg : Package} :
      id ∈ ids → isCandidate dw id = true → lookup G id = some pkg →
      ReachC dw G ids id
  | step {ids : List String} {a b : String} {pkga pkgb : Package} :
      ReachC dw G ids a → lookup G a = some pkga → b ∈ pkga.imports →
      isCandidate dw b = true → lookup G b = some pkgb →
      ReachC dw G ids b

/-- File collection of `DepWalker.List`: every source file of every
package in the visited map (no deduplication in the source; the map
itself prevents a package from contributing twice). -/
def collectFiles (G : List Package) : List String → List String
  | [] => []
  | id :: rest =>
    (match lookup G id with
     | some p => p.goFiles
     | none => []) ++ collectFiles G rest

/-- `sort.Strings` of the source: ascending lexicographic sort. -/
def sortStrings (l : List String) : List String :=
  l.insertionSort (· ≤ ·)

/-- The `DepWalker` as configured by `List`: when external dependencies
are excluded, `module` and `moduleWithSlash` are populated from the
module manifest; otherwise they keep their zero values. -/
def mkDepWalker (includeExternalDeps : Bool) (module : String) : DepWalker :=
  if includeExternalDeps then
    { module := "", moduleWithSlash := "", includeExternalDeps := true }
  else
    { module := module, moduleWithSlash := module ++ "/",
      includeExternalDeps := false }

/-- `DepWalker.List` from the source.  The module identifier (the
result of `gomod.Module()`, consulted only when external dependencies
are excluded) and the loaded universe `G` with the root packages
`roots` returned by `packages.Load(cfg, "./...")` are supplied by the
external collaborators. -/
def depWalkerList (includeExternalDeps : Bool) (module : String)
    (G : List Package) (roots : List String) : List String :=
  sortStrings
    (collectFiles G (visitAll (mkDepWalker includeExternalDeps module) G roots []))

/-- A module layout on which `DepWalker.List` with external inclusion
disabled does not return the files of every module-prefixed package:
`m/sub` hides behind the external package `x` (module dependency cycles
make this layout realizable). -/
def hiddenSubG : List Package :=
  [⟨"m/cmd", ["/m/cmd/main.go"], ["x"]⟩,
   ⟨"x", ["/x/x.go"], ["m/sub"]⟩,
   ⟨"m/sub", ["/m/sub/s.go"], []⟩]

/-! ## Process supervisor (commander.go)

`Cmd` models the fields of `exec.Cmd` the supervisor uses: program,
arguments, the process handle (its group PID) once the OS has started
it, and `ProcessState`.  OS outcomes (spawn success, signal delivery)
are oracle parameters; `ProcessState` is program state, not an oracle:
`exec.Cmd` sets it only in `Wait`/`Run`, which this program never
calls, so every handle the program creates keeps it `none`
permanently. -/

structure Cmd where
  program : String
  args : List String
  pid : Option Int
  processState : Option Bool
deriving DecidableEq, Repr

/-- `strings.Fields` helper: scan characters, accumulating the current
field and splitting at whitespace. -/
def fieldsAux : List Char → List Char → List (List Char)
  | [], acc => if acc.isEmpty then [] else [acc.reverse]
  | c :: cs, acc =>
    if c.isWhitespace then
      if acc.isEmpty then fieldsAux cs [] else acc.reverse :: fieldsAux cs []
    else fieldsAux cs (c :: acc)

/-- `strings.Fields` from the Go standard library: the whitespace-
separated fields of `s`, with no empty fields. -/
def strFields (s : String) : List String :=
  (fieldsAux s.data []).map String.mk

/-- The error values `commander.Start` can produce. -/
inductive StartError
  | emptyCommand
  | startCommand (command : String)
deriving DecidableEq, Repr

/-- Result of a `commander.Start` call: the `cmd` field of the commander
after the call, the returned error, and whether the OS spawn
(`cmd.Start()`) was invoked at all. -/
structure StartResult where
  cmd : Option Cmd
  error : Option StartError
  spawnAttempted : Bool
deriving DecidableEq, Repr

/-- `commander.Start` from the source: split the command into fields;
an empty field list returns `EmptyCommandError` before any assignment;
otherwise the new `exec.Cmd` is assigned to `c.cmd` and started, the
spawn oracle returning `some pid` on success.  `exec.Command` creates
the handle with a nil `ProcessState`, and `cmd.Start()` never sets it
(only `Wait`/`Run` do), so the tracked handle always carries
`processState = none`. -/
def commanderStart (c : Option Cmd) (command : String)
    (spawn : String → List String → Option Int) : StartResult :=
  match strFields command with
  | [] => ⟨c, some .emptyCommand, false⟩
  | prog :: rest =>
    match spawn prog rest with
    | none => ⟨some ⟨prog, rest, none, none⟩, some (.startCommand command), true⟩
    | some pid => ⟨some ⟨prog, rest, some pid, none⟩, none, true⟩

/-- The OS outcomes `commander.Terminate` branches on: whether the
SIGTERM `syscall.Kill` fails and whether the SIGKILL `syscall.Kill`
fails.  Whether the child process actually exited is not here: the code
consults only `cmd.ProcessState`, which is program state carried by
`Cmd`. -/
structure TermEnv where
  sigtermFails : Bool
  sigkillFails : Bool
deriving DecidableEq, Repr

/-- The error value `commander.Terminate` can produce. -/
inductive TermError
  | forceKill (pid : Int)
deriving DecidableEq, Repr

/-- Result of a `commander.Terminate` call: the returned error, the
process group the graceful SIGTERM call addressed (if any), and the
process group the SIGKILL call addressed (if any). -/
structure TermResult where
  error : Option TermError
  sigtermSent : Option Int
  sigkillSent : Option Int
deriving DecidableEq, Repr

/-- `commander.forceKill` from the source: a no-op success when nothing
is tracked; otherwise SIGKILL the process group, returning
`ForceKillError` exactly when that kill call fails. -/
def commanderForceKill (c : Option Cmd) (env : TermEnv) :
    Option TermError × Option Int :=
  match c with
  | none => (none, none)
  | some cmd =>
    match cmd.pid with
    | none => (none, none)
    | some pid =>
      if env.sigkillFails then (some (.forceKill pid), some pid)
      else (none, some pid)

/-- `commander.Terminate` from the source: success when nothing is
tracked; otherwise SIGTERM the process group (escalating immediately to
`forceKill` if the call fails), sleep the grace period, then check
`c.cmd.ProcessState != nil && c.cmd.ProcessState.Exited()` — success if
it reports an exit, escalation to `forceKill` otherwise (also when
`ProcessState` is nil, the permanent case in this program since
`cmd.Wait` is never called). -/
def commanderTerminate (c : Option Cmd) (env : TermEnv) : TermResult :=
  match c with
  | none => ⟨none, none, none⟩
  | some cmd =>
    match cmd.pid with
    | none => ⟨none, none, none⟩
    | some pid =>
      if env.sigtermFails then
        let fk := commanderForceKill c env
        ⟨fk.1, some pid, fk.2⟩
      else
        match cmd.processState with
        | some true => ⟨none, some pid, none⟩
        | some false =>
          let fk := commanderForceKill c env
          ⟨fk.1, some pid, fk.2⟩
        | none =>
          let fk := commanderForceKill c env
          ⟨fk.1, some pid, fk.2⟩

/-! ## Change watcher (watch.go)

`WState` models the mutable state of the watcher: `hasFs` is
`w.watcher != nil`, `closed` is `w.closed`, `timer` is the pending
debounce timer as its absolute deadline (discrete instants),
`readersWaiting` counts the readers currently blocked on `w.done` — the
unbuffered channel has two concurrent readers per session: the read
inside `Watch` itself and the read of `watcher.Wait()` performed by
`runOnce` in main.go — `delivered` counts completions received on
`w.done`, and `doneChans` counts executions of
`w.done = make(chan error)`. -/

structure WState where
  hasFs : Bool
  closed : Bool
  timer : Option Nat
  readersWaiting : Nat
  delivered : Nat
  doneChans : Nat
deriving DecidableEq, Repr

/-- The watcher state once `Watch` has subscribed every path, started
`monitor` and blocked reading `w.done`, and the orchestrator
(`runOnce`) has blocked on its own `<-watcher.Wait()` read of the same
channel: two readers are queued on `done`. -/
def sessionStart : WState :=
  { hasFs := true, closed := false, timer := none, readersWaiting := 2,
    delivered := 0, doneChans := 1 }

/-- `watcher.end` with a nil error: skipped entirely when the watcher
is marked closed; otherwise the `select` sends on `done` when some
reader is ready (the runtime hands the value to one of the queued
readers) and takes the `default` branch (dropping the value, never
blocking) otherwise. -/
def endCall (s : WState) : WState :=
  if s.closed then s
  else
    match s.readersWaiting with
    | r + 1 => { s with delivered := s.delivered + 1, readersWaiting := r }
    | 0 => s

/-- `watcher.stopTimer`: stop and clear any pending timer. -/
def stopTimer (s : WState) : WState :=
  { s with timer := none }

/-- `watcher.process`: the callback of the debounce timer — stop the timer
and signal completion. -/
def processEvent (s : WState) : WState :=
  endCall (stopTimer s)

/-- One qualifying filesystem event (create, remove or write) arriving
at instant `now`: a pending timer whose deadline has already passed has
fired (running `process` under the lock) before the event is handled;
the handler then stops any pending timer and arms a fresh one `delay`
after `now`. -/
def onEvent (delay : Nat) (s : WState) (now : Nat) : WState :=
  let s' :=
    match s.timer with
    | some d => if d ≤ now then processEvent s else s
    | none => s
  { s' with timer := some (now + delay) }

/-- Process a time-ordered sequence of qualifying events. -/
def runEvents (delay : Nat) : WState → List Nat → WState
  | s, [] => s
  | s, t :: ts => runEvents delay (onEvent delay s t) ts

/-- After the last event, a pending timer fires at its deadline;
returns the resulting state and the firing instant (if any). -/
def finalFire (s : WState) : WState × Option Nat :=
  match s.timer with
  | some d => (processEvent s, some d)
  | none => (s, none)

/-- The errors `watcher.Watch` can return before blocking. -/
inductive WatchError
  | alreadyRunning
  | creation
  | depWalker
  | pathAddition (path : String)
deriving DecidableEq, Repr

/-- Collaborator outcomes `watcher.Watch` branches on: whether
`fsnotify.NewWatcher` succeeds, the dependency-resolver result (`none`
models a resolver error), and which paths `watcher.Add` fails on. -/
structure WatchEnv where
  newWatcherOk : Bool
  deps : Option (List String)
  addFailsAt : String → Bool

/-- `watcher.Watch` from the source, up to the blocking read of
`w.done`: an instance whose filesystem watcher is already set fails
immediately with `WatcherAlreadyRunningError`; otherwise `done` is
created, the filesystem watcher is created and assigned, dependencies
are resolved, every path is subscribed (failing fatally on the first
bad path), and the caller blocks reading `done` (one more queued
reader, result `none`). -/
def watcherWatch (s : WState) (env : WatchEnv) : WState × Option WatchError :=
  if s.hasFs then (s, some .alreadyRunning)
  else
    let s1 := { s with doneChans := s.doneChans + 1 }
    if env.newWatcherOk = false then (s1, some .creation)
    else
      let s2 := { s1 with hasFs := true }
      match env.deps with
      | none => (s2, some .depWalker)
      | some deps =>
        match deps.find? env.addFailsAt with
        | some p => (s2, some (.pathAddition p))
        | none => ({ s2 with readersWaiting := s2.readersWaiting + 1 }, none)

/-- The observable outcomes of one `watcher.Close` call. -/
inductive CloseOutcome
  | nilNotRunning
  | closedOk
  | panicked
deriving DecidableEq, Repr

/-- `watcher.Close` from the source: nil when not running; the
`panic("watcher should not be closed")` branch when running and already
marked closed; otherwise stop the timer, close `done` (releasing every
blocked reader), mark closed, clear the filesystem watcher. -/
def closeCall (s : WState) : WState × CloseOutcome :=
  if s.hasFs = false then (s, .nilNotRunning)
  else if s.closed then (s, .panicked)
  else
    let s' := { s with timer := none, closed := true, hasFs := false, readersWaiting := 0 }
    (s', .closedOk)

/-- Outcomes of `n` consecutive `Close` calls. -/
def closeTrace : WState → Nat → List CloseOutcome
  | _, 0 => []
  | s, n + 1 => (closeCall s).2 :: closeTrace (closeCall s).1 n

/-- The per-instance invariant separating `Watching` from `Closed`:
the watcher is never simultaneously running and marked closed (it holds
in the idle, watching and closed states of a single-use instance). -/
def CloseInv (s : WState) : Prop :=
  s.hasFs = true → s.closed = false

/-- The interleavable operations that touch the completion signal
within one watch session. -/
inductive SessionOp
  | endEvent
  | closeOp
deriving DecidableEq, Repr

/-- Run a sequence of `end` and `Close` invocations. -/
def runOps : WState → List SessionOp → WState
  | s, [] => s
  | s, .endEvent :: ops => runOps (endCall s) ops
  | s, .closeOp :: ops => runOps (closeCall s).1 ops

/-- The watcher state after `Close` ended a session in which one
completion had been delivered. -/
def closedSession : WState :=
  { hasFs := false, closed := true, timer := none, readersWaiting := 0,
    delivered := 1, doneChans := 1 }

/-! ## Argument processing (main.go) -/

/-- `defaultCommand` from the source. -/
def defaultCommand : String := "go run ."

/-- Removal of the first `"--"` from the argument list, as the source
does with `append(args[:sepidx], args[sepidx+1:]...)`. -/
def removeSeparator (args : List String) : List String :=
  match args.findIdx? (· == "--") with
  | none => args
  | some i => args.eraseIdx i

/-- The filesystem facts `processArgs` consults: the current working
directory and, for each path, whether it exists (`none` models
`os.IsNotExist`) and is a directory, plus `filepath.Dir`. -/
structure ArgsEnv where
  cwd : String
  statIsDir : String → Option Bool
  dirOf : String → String

/-- `processArgs` from the source: drop a `"--"` separator; with no
remaining arguments return the working directory and the zero-value
command string; otherwise trim the arguments, take the first as the
path, join the rest as the command (falling back to `defaultCommand`
when only the path is present), and replace a non-directory path by its
containing directory.  `none` models the `Fatal` exit on a missing
path. -/
def processArgs (env : ArgsEnv) (args : List String) :
    Option (String × String) :=
  let args1 := removeSeparator args
  if args1.length < 1 then some (env.cwd, "")
  else
    let args2 := args1.map (fun s => s.trim)
    let path := args2.headD ""
    let command :=
      if args2.length > 1 then " ".intercalate (args2.drop 1)
      else defaultCommand
    match env.statIsDir path with
    | none => none
    | some true => some (path, command)
    | some false => some (env.dirOf path, command)

/-! ## Theorems -/

theorem lookup_mem_paths {G : List Package} {id : String} {pkg : Package}
    (h : lookup G id = some pkg) : id ∈ pkgPaths G := by
  unfold lookup at h
  have hmem : pkg ∈ G := List.mem_of_find?_eq_some h
  have hbeq := List.find?_some h
  have heq : pkg.pkgPath = id := by simpa using hbeq
  exact heq ▸ List.mem_map_of_mem Package.pkgPath hmem

theorem lookup_pkgPath {G : List Package} {id : String} {pkg : Package}
    (h : lookup G id = some pkg) : pkg.pkgPath = id := by
  unfold lookup at h
  have hbeq := List.find?_some h
  simpa using hbeq

theorem lookup_mem {G : List Package} {id : String} {pkg : Package}
    (h : lookup G id = some pkg) : pkg ∈ G := by
  unfold lookup at h
  exact List.mem_of_find?_eq_some h

theorem unvisitedCount_le {G : List Package} {v w : List String}
    (hvw : ∀ x ∈ v, x ∈ w) : unvisitedCount G w ≤ unvisitedCount G v := by
  apply Finset.card_le_card
  apply Finset.sdiff_subset_sdiff (le_refl _)
  intro x hx
  exact List.mem_toFinset.mpr (hvw x (List.mem_toFinset.mp hx))

theorem unvisitedCount_cons_lt {G : List Package} {v : List String} {id : String}
    (hid : id ∈ pkgPaths G) (hnv : id ∉ v) :
    unvisitedCount G (id :: v) < unvisitedCount G v := by
  apply Finset.card_lt_card
  constructor
  · apply Finset.sdiff_subset_sdiff (le_refl _)
    intro x hx
    exact List.mem_toFinset.mpr (List.mem_cons_of_mem id (List.mem_toFinset.mp hx))
  · intro hsub
    have hidmem : id ∈ (pkgPaths G).toFinset \ v.toFinset := by
      simp [List.mem_toFinset, hid, hnv]
    have := hsub hidmem
    simp [List.mem_toFinset] at this

theorem visitAll_grows (dw : DepWalker) (G : List Package)
    (ids visited : List String) :
    ∀ x ∈ visited, x ∈ visitAll dw G ids visited :=
  (visitAllAux dw G ids visited).2

theorem ReachC.mono {dw : DepWalker} {G : List Package}
    {ids ids' : List String} {x : String}
    (hsub : ∀ y ∈ ids, y ∈ ids') (h : ReachC dw G ids x) :
    ReachC dw G ids' x := by
  induction h with
  | base hid hc hl => exact ReachC.base (hsub _ hid) hc hl
  | step _ hla hb hc hlb ih => exact ReachC.step ih hla hb hc hlb

theorem ReachC.lift {dw : DepWalker} {G : List Package}
    {ids : List String} {a x : String} {pkga : Package}
    (h : ReachC dw G pkga.imports x)
    (ha : ReachC dw G ids a) (hla : lookup G a = some pkga) :
    ReachC dw G ids x := by
  induction h with
  | base hid hc hl => exact ReachC.step ha hla hid hc hl
  | step _ hlb hb hc hlc ih => exact ReachC.step ih hlb hb hc hlc

/-- Every candidate package reached carries its candidacy and presence. -/
theorem ReachC.candidate {dw : DepWalker} {G : List Package}
    {ids : List String} {x : String} (h : ReachC dw G ids x) :
    isCandidate dw x = true ∧ ∃ pkg, lookup G x = some pkg := by
  induction h with
  | base _ hc hl => exact ⟨hc, _, hl⟩
  | step _ _ _ hc hl _ => exact ⟨hc, _, hl⟩

/-- Soundness of the traversal: everything in the output visited map was
already visited or is reachable through candidate packages from the work
list. -/
theorem visitAll_sound (dw : DepWalker) (G : List Package) :
    ∀ ids visited, ∀ x ∈ visitAll dw G ids visited,
      x ∈ visited ∨ ReachC dw G ids x := by
  intro ids visited
  induction ids, visited using visitAllAux.induct dw G with
  | case1 visited =>
    intro x hx
    rw [visitAll, visitAllAux] at hx
    exact Or.inl hx
  | case2 id rest visited hl ih =>
    intro x hx
    rw [visitAll, visitAllAux, hl] at hx
    rcases ih x hx with h | h
    · exact Or.inl h
    · exact Or.inr (h.mono (fun y hy => List.mem_cons_of_mem id hy))
  | case3 id rest visited pkg hl hv ih =>
    intro x hx
    rw [visitAll, visitAllAux, hl] at hx
    simp only [dif_pos hv] at hx
    rcases ih x hx with h | h
    · exact Or.inl h
    · exact Or.inr (h.mono (fun y hy => List.mem_cons_of_mem id hy))
  | case4 id rest visited pkg hl hv hc inner ihInner ihOuter ihOuter2 =>
    intro x hx
    rw [visitAll, visitAllAux, hl] at hx
    simp only [dif_neg hv, dif_pos hc] at hx
    have hbase : ReachC dw G (id :: rest) id :=
      ReachC.base (List.mem_cons_self id rest) hc hl
    rcases ihOuter2 x hx with h | h
    · rcases ihInner x h with h' | h'
      · rcases List.mem_cons.mp h' with rfl | h''
        · exact Or.inr hbase
        · exact Or.inl h''
      · exact Or.inr (h'.lift hbase hl)
    · exact Or.inr (h.mono (fun y hy => List.mem_cons_of_mem id hy))
  | case5 id rest visited pkg hl hv hc ih =>
    intro x hx
    rw [visitAll, visitAllAux, hl] at hx
    simp only [dif_neg hv, dif_neg hc] at hx
    rcases ih x hx with h | h
    · exact Or.inl h
    · exact Or.inr (h.mono (fun y hy => List.mem_cons_of_mem id hy))

/-- Completeness invariants of the traversal: (a) every candidate
package on the work list that resolves in the universe is admitted;
(b) for every freshly admitted package, its candidate resolvable imports are
admitted. -/
theorem visitAll_complete_aux (dw : DepWalker) (G : List Package) :
    ∀ ids visited,
      (∀ id ∈ ids, isCandidate dw id = true →
        ∀ pkg, lookup G id = some pkg → id ∈ visitAll dw G ids visited) ∧
      (∀ v ∈ visitAll dw G ids visited, v ∉ visited →
        ∀ pkgv, lookup G v = some pkgv →
        ∀ b ∈ pkgv.imports, isCandidate dw b = true →
        ∀ pkgb, lookup G b = some pkgb → b ∈ visitAll dw G ids visited) := by
  intro ids visited
  induction ids, visited using visitAllAux.induct dw G with
  | case1 visited =>
    constructor
    · intro id hid
      cases hid
    · intro v hv hnv
      rw [visitAll, visitAllAux] at hv
      exact absurd hv hnv
  | case2 id rest visited hl ih =>
    rw [visitAll, visitAllAux, hl]
    constructor
    · intro id' hid' hc pkg hl'
      rcases List.mem_cons.mp hid' with rfl | h
      · rw [hl] at hl'
        cases hl'
      · exact ih.1 id' h hc pkg hl'
    · exact ih.2
  | case3 id rest visited pkg hl hv ih =>
    rw [visitAll, visitAllAux, hl]
    simp only [dif_pos hv]
    constructor
    · intro id' hid' hc pkg' hl'
      rcases List.mem_cons.mp hid' with rfl | h
      · exact visitAll_grows dw G rest visited id' hv
      · exact ih.1 id' h hc pkg' hl'
    · exact ih.2
  | case4 id rest visited pkg hl hv hc inner ihInner ihOuter ihOuter2 =>
    rw [visitAll, visitAllAux, hl]
    simp only [dif_neg hv, dif_pos hc]
    constructor
    · intro id' hid' hc' pkg' hl'
      rcases List.mem_cons.mp hid' with rfl | h
      · exact visitAll_grows dw G rest _ id'
          ((visitAllAux dw G pkg.imports (id' :: visited)).2 id'
            (List.mem_cons_self id' visited))
      · exact ihOuter2.1 id' h hc' pkg' hl'
    · intro v hvmem hnv pkgv hlv b hb hcb pkgb hlb
      by_cases hvin : v ∈ (visitAllAux dw G pkg.imports (id :: visited)).1
      · by_cases hvid : v = id
        · subst hvid
          rw [hl] at hlv
          cases hlv
          exact visitAll_grows dw G rest _ b
            (ihInner.1 b hb hcb pkgb hlb)
        · have hnv' : v ∉ id :: visited := by
            intro hmem
            rcases List.mem_cons.mp hmem with h | h
            · exact hvid h
            · exact hnv h
          exact visitAll_grows dw G rest _ b
            (ihInner.2 v hvin hnv' pkgv hlv b hb hcb pkgb hlb)
      · exact ihOuter2.2 v hvmem hvin pkgv hlv b hb hcb pkgb hlb
  | case5 id rest visited pkg hl hv hc ih =>
    rw [visitAll, visitAllAux, hl]
    simp only [dif_neg hv, dif_neg hc]
    constructor
    · intro id' hid' hc' pkg' hl'
      rcases List.mem_cons.mp hid' with rfl | h
      · exact absurd hc' hc
      · exact ih.1 id' h hc' pkg' hl'
    · exact ih.2

/-- Everything reachable through candidate packages is admitted by the
top-level traversal (empty initial visited map). -/
theorem visitAll_complete (dw : DepWalker) (G : List Package)
    (roots : List String) :
    ∀ x, ReachC dw G roots x → x ∈ visitAll dw G roots [] := by
  intro x hx
  induction hx with
  | base hid hc hl => exact (visitAll_complete_aux dw G roots []).1 _ hid hc _ hl
  | step _ hla hb hc hlb ih =>
    exact (visitAll_complete_aux dw G roots []).2 _ ih (by simp) _ hla _ hb hc _ hlb

/-- The visited map never acquires a duplicate: a package already
admitted is skipped, so each package is admitted at most once. -/
theorem visitAll_nodup (dw : DepWalker) (G : List Package) :
    ∀ ids visited, visited.Nodup → (visitAll dw G ids visited).Nodup := by
  intro ids visited
  induction ids, visited using visitAllAux.induct dw G with
  | case1 visited =>
    intro h
    rw [visitAll, visitAllAux]
    exact h
  | case2 id rest visited hl ih =>
    intro h
    rw [visitAll, visitAllAux, hl]
    exact ih h
  | case3 id rest visited pkg hl hv ih =>
    intro h
    rw [visitAll, visitAllAux, hl]
    simp only [dif_pos hv]
    exact ih h
  | case4 id rest visited pkg hl hv hc inner ihInner ihOuter ihOuter2 =>
    intro h
    rw [visitAll, visitAllAux, hl]
    simp only [dif_neg hv, dif_pos hc]
    exact ihOuter2 (ihInner (List.nodup_cons.mpr ⟨hv, h⟩))
  | case5 id rest visited pkg hl hv hc ih =>
    intro h
    rw [visitAll, visitAllAux, hl]
    simp only [dif_neg hv, dif_neg hc]
    exact ih h

theorem mem_collectFiles_iff {G : List Package} {ids : List String} {f : String} :
    f ∈ collectFiles G ids ↔
      ∃ id ∈ ids, ∃ p, lookup G id = some p ∧ f ∈ p.goFiles := by
  induction ids with
  | nil => simp [collectFiles]
  | cons id rest ih =>
    cases hl : lookup G id with
    | none =>
      simp only [collectFiles, hl, List.nil_append, ih]
      constructor
      · rintro ⟨b, hb, p, hp, hf⟩
        exact ⟨b, List.mem_cons_of_mem id hb, p, hp, hf⟩
      · rintro ⟨b, hb, p, hp, hf⟩
        rcases List.mem_cons.mp hb with rfl | hb'
        · rw [hl] at hp; cases hp
        · exact ⟨b, hb', p, hp, hf⟩
    | some p =>
      simp only [collectFiles, hl, List.mem_append, ih]
      constructor
      · rintro (hf | ⟨b, hb, q, hq, hf⟩)
        · exact ⟨id, List.mem_cons_self id rest, p, hl, hf⟩
        · exact ⟨b, List.mem_cons_of_mem id hb, q, hq, hf⟩
      · rintro ⟨b, hb, q, hq, hf⟩
        rcases List.mem_cons.mp hb with rfl | hb'
        · rw [hl] at hq
          cases hq
          exact Or.inl hf
        · exact Or.inr ⟨b, hb', q, hq, hf⟩

theorem collectFiles_nodup {G : List Package} {ids : List String}
    (hids : ids.Nodup)
    (hdisj : ∀ p ∈ G, ∀ q ∈ G, p.pkgPath ≠ q.pkgPath →
      ∀ f ∈ p.goFiles, f ∉ q.goFiles)
    (hnd : ∀ p ∈ G, p.goFiles.Nodup) :
    (collectFiles G ids).Nodup := by
  induction ids with
  | nil => simp [collectFiles]
  | cons id rest ih =>
    have hid : id ∉ rest := (List.nodup_cons.mp hids).1
    have hrest : rest.Nodup := (List.nodup_cons.mp hids).2
    cases hl : lookup G id with
    | none => simpa [collectFiles, hl] using ih hrest
    | some p =>
      simp only [collectFiles, hl]
      apply List.Nodup.append (hnd p (lookup_mem hl)) (ih hrest)
      intro f hf hf'
      rcases mem_collectFiles_iff.mp hf' with ⟨b, hb, q, hq, hfq⟩
      have hbne : b ≠ id := fun h => hid (h ▸ hb)
      have hpq : p.pkgPath ≠ q.pkgPath := by
        rw [lookup_pkgPath hl, lookup_pkgPath hq]
        exact fun h => hbne h.symm
      exact hdisj p (lookup_mem hl) q (lookup_mem hq) hpq f hf hfq

/-- C1 (counterexample): on the layout `hiddenSubG` with module
identifier `m` and root package `m/cmd`, the package `m/sub` is
module-prefixed (a candidate) and present in the loaded universe, yet
its source file is absent from the result of `DepWalker.List` with
external inclusion disabled — the result is not "exactly the source
files of packages whose import path equals the module identifier or
starts with the module identifier followed by a slash". -/
theorem depWalkerList_misses_hidden_candidate :
    isCandidate (mkDepWalker false "m") "m/sub" = true ∧
    (⟨"m/sub", ["/m/sub/s.go"], []⟩ : Package) ∈ hiddenSubG ∧
    depWalkerList false "m" hiddenSubG ["m/cmd"] = ["/m/cmd/main.go"] ∧
    "/m/sub/s.go" ∉ depWalkerList false "m" hiddenSubG ["m/cmd"] := by
  have heval : depWalkerList false "m" hiddenSubG ["m/cmd"] = ["/m/cmd/main.go"] := by
    simp [depWalkerList, mkDepWalker, sortStrings, collectFiles, visitAll,
      visitAllAux, lookup, isCandidate, hiddenSubG, List.find?, hasPrefix,
      List.isPrefixOf]
  refine ⟨by decide, by decide, heval, ?_⟩
  rw [heval]
  decide

/-- C1 (amended): for every module layout whose packages have pairwise
disjoint, duplicate-free source-file lists, `DepWalker.List` with
external inclusion disabled returns only files of packages whose import
path equals the module identifier or starts with the module identifier
followed by a slash; with inclusion enabled it returns the files of every
reachable package; in both cases the returned list is sorted
lexicographically and contains no duplicate path. -/
theorem depWalkerList_spec (module : String) (G : List Package)
    (roots : List String)
    (hdisj : ∀ p ∈ G, ∀ q ∈ G, p.pkgPath ≠ q.pkgPath →
      ∀ f ∈ p.goFiles, f ∉ q.goFiles)
    (hnd : ∀ p ∈ G, p.goFiles.Nodup) :
    (∀ ext : Bool, (depWalkerList ext module G roots).Sorted (· ≤ ·) ∧
      (depWalkerList ext module G roots).Nodup) ∧
    (∀ f ∈ depWalkerList false module G roots,
      ∃ p ∈ G, f ∈ p.goFiles ∧
        (p.pkgPath = module ∨ hasPrefix p.pkgPath (module ++ "/") = true)) ∧
    (∀ x pkg, ReachC (mkDepWalker true module) G roots x →
      lookup G x = some pkg →
      ∀ f ∈ pkg.goFiles, f ∈ depWalkerList true module G roots) := by
  refine ⟨?_, ?_, ?_⟩
  · intro ext
    constructor
    · exact List.sorted_insertionSort _ _
    · exact (List.perm_insertionSort _ _).nodup_iff.mpr
        (collectFiles_nodup
          (visitAll_nodup (mkDepWalker ext module) G roots [] List.nodup_nil)
          hdisj hnd)
  · intro f hf
    have hf' : f ∈ collectFiles G
        (visitAll (mkDepWalker false module) G roots []) :=
      (List.mem_insertionSort _).mp hf
    rcases mem_collectFiles_iff.mp hf' with ⟨id, hid, p, hp, hfp⟩
    have hsound := visitAll_sound (mkDepWalker false module) G roots [] id hid
    rcases hsound with h | h
    · cases h
    · have hc := (ReachC.candidate h).1
      have hpath : p.pkgPath = id := lookup_pkgPath hp
      refine ⟨p, lookup_mem hp, hfp, ?_⟩
      rw [hpath]
      simpa [isCandidate, mkDepWalker] using hc
  · intro x pkg hr hl f hf
    have hx : x ∈ visitAll (mkDepWalker true module) G roots [] :=
      visitAll_complete _ G roots x hr
    exact (List.mem_insertionSort _).mpr
      (mem_collectFiles_iff.mpr ⟨x, hx, pkg, hl, hf⟩)

/-- C1 (witness): the amended theorem applied to the concrete layout
`hiddenSubG`, whose file lists are pairwise disjoint and
duplicate-free. -/
theorem depWalkerList_spec_witness :
    (∀ p ∈ hiddenSubG, ∀ q ∈ hiddenSubG, p.pkgPath ≠ q.pkgPath →
      ∀ f ∈ p.goFiles, f ∉ q.goFiles) ∧
    (∀ f ∈ depWalkerList false "m" hiddenSubG ["m/cmd"],
      ∃ p ∈ hiddenSubG, f ∈ p.goFiles ∧
        (p.pkgPath = "m" ∨ hasPrefix p.pkgPath ("m" ++ "/") = true)) :=
  ⟨by decide,
   (depWalkerList_spec "m" hiddenSubG ["m/cmd"] (by decide) (by decide)).2.1⟩

/-- C2: for every import graph (cycles and diamonds included — the
universe `G` and the import lists are arbitrary) the traversal
`visitAll` is total (it is defined by well-founded recursion on the
unvisited-package count, so this theorem quantifies over all graphs),
and each package is admitted to the visited map at most once, so no
admitted package contributes its files more than once. -/
theorem visitAll_admits_each_package_once (dw : DepWalker)
    (G : List Package) (roots : List String) :
    (visitAll dw G roots []).Nodup ∧
    ∀ id : String, (visitAll dw G roots []).count id ≤ 1 := by
  have h := visitAll_nodup dw G roots [] List.nodup_nil
  exact ⟨h, fun id => List.nodup_iff_count_le_one.mp h id⟩

theorem fieldsAux_all_whitespace :
    ∀ l : List Char, (∀ c ∈ l, c.isWhitespace = true) → fieldsAux l [] = [] := by
  intro l h
  induction l with
  | nil => rfl
  | cons c cs ih =>
    have hc : c.isWhitespace = true := h c (List.mem_cons_self c cs)
    simp only [fieldsAux, hc, if_true, List.isEmpty_nil]
    exact ih (fun x hx => h x (List.mem_cons_of_mem c hx))

/-- C4 (code evaluation): the branch "returns success without invoking
forced kill when the process has exited within the grace period" is
dead code.  `cmd.ProcessState` is set only by `cmd.Wait`/`cmd.Run`,
which this program never calls, so every handle `Start` tracks carries
`ProcessState = nil` permanently — here: starting `go run .` (PID 42)
yields a handle with `processState = none`, and `Terminate` after a
successful SIGTERM then invokes forced kill (SIGKILL addressed to
group 42) no matter whether the child actually exited within the grace
period, and no matter the SIGKILL outcome. -/
theorem commanderTerminate_forceKills_despite_exit :
    (commanderStart none "go run ." (fun _ _ => some 42)).cmd =
      some ⟨"go", ["run", "."], some 42, none⟩ ∧
    ∀ sigkillFails : Bool,
      (commanderTerminate
          (commanderStart none "go run ." (fun _ _ => some 42)).cmd
          ⟨false, sigkillFails⟩).sigkillSent = some 42 := by
  constructor
  · rfl
  · intro sk
    cases sk <;> rfl

/-- C6: `commander.Start` on a command that is empty or all whitespace
returns `EmptyCommandError`, leaves the tracked-process field exactly
as it was, and never invokes the OS spawn. -/
theorem commanderStart_empty (c : Option Cmd) (command : String)
    (spawn : String → List String → Option Int)
    (h : ∀ ch ∈ command.data, ch.isWhitespace = true) :
    commanderStart c command spawn = ⟨c, some .emptyCommand, false⟩ := by
  have hf : strFields command = [] := by
    rw [strFields, fieldsAux_all_whitespace command.data h]
    rfl
  rw [commanderStart, hf]

/-- C6 (witness): starting with the all-whitespace command `"  "` on a
fresh commander returns `EmptyCommandError` without spawning. -/
theorem commanderStart_empty_witness :
    commanderStart none "  " (fun _ _ => some 1) =
      ⟨none, some .emptyCommand, false⟩ :=
  commanderStart_empty none "  " (fun _ _ => some 1) (by decide)

/-- C10: a second successful `Start` without an intervening `Terminate`
replaces the tracked handle; a subsequent `Terminate` signals only the
second process group and never the group of the first process. -/
theorem commanderStart_second_replaces (c0 : Option Cmd)
    (cmd1 cmd2 : String) (spawn1 spawn2 : String → List String → Option Int)
    (prog1 prog2 : String) (rest1 rest2 : List String) (pid1 pid2 : Int)
    (h1 : strFields cmd1 = prog1 :: rest1)
    (hs1 : spawn1 prog1 rest1 = some pid1)
    (h2 : strFields cmd2 = prog2 :: rest2)
    (hs2 : spawn2 prog2 rest2 = some pid2)
    (hne : pid1 ≠ pid2) (env : TermEnv) :
    (commanderStart c0 cmd1 spawn1).cmd = some ⟨prog1, rest1, some pid1, none⟩ ∧
    (commanderStart (commanderStart c0 cmd1 spawn1).cmd cmd2 spawn2).cmd =
      some ⟨prog2, rest2, some pid2, none⟩ ∧
    (commanderTerminate
        (commanderStart (commanderStart c0 cmd1 spawn1).cmd cmd2 spawn2).cmd
        env).sigtermSent = some pid2 ∧
    (commanderTerminate
        (commanderStart (commanderStart c0 cmd1 spawn1).cmd cmd2 spawn2).cmd
        env).sigtermSent ≠ some pid1 ∧
    (commanderTerminate
        (commanderStart (commanderStart c0 cmd1 spawn1).cmd cmd2 spawn2).cmd
        env).sigkillSent ≠ some pid1 := by
  have e1 : commanderStart c0 cmd1 spawn1 =
      ⟨some ⟨prog1, rest1, some pid1, none⟩, none, true⟩ := by
    rw [commanderStart, h1]
    simp [hs1]
  have e2 : commanderStart (commanderStart c0 cmd1 spawn1).cmd cmd2 spawn2 =
      ⟨some ⟨prog2, rest2, some pid2, none⟩, none, true⟩ := by
    rw [commanderStart, h2]
    simp [hs2]
  rw [e2]
  rcases env with ⟨st, sk⟩
  refine ⟨by rw [e1], rfl, ?_, ?_, ?_⟩ <;>
    cases st <;> cases sk <;>
      simp [commanderTerminate, commanderForceKill] <;>
        simp [Ne, eq_comm] <;> exact hne

/-- C10 (witness): starting `sleep 1` (PID 1) then `go run .` (PID 2)
leaves the supervisor tracking only the second process. -/
theorem commanderStart_second_replaces_witness :
    (commanderStart (commanderStart none "sleep 1" (fun _ _ => some 1)).cmd
        "go run ." (fun _ _ => some 2)).cmd =
      some ⟨"go", ["run", "."], some 2, none⟩ :=
  (commanderStart_second_replaces none "sleep 1" "go run ."
    (fun _ _ => some 1) (fun _ _ => some 2) "sleep" "go" ["1"] ["run", "."]
    1 2 (by decide) rfl (by decide) rfl (by decide)
    ⟨false, false⟩).2.1

theorem runEvents_chain (delay : Nat) :
    ∀ (ts : List Nat) (t : Nat),
      List.Chain (fun a b => a ≤ b ∧ b < a + delay) t ts →
      runEvents delay
        { hasFs := true, closed := false, timer := some (t + delay),
          readersWaiting := 2, delivered := 0, doneChans := 1 } ts =
      { hasFs := true, closed := false, timer := some (ts.getLastD t + delay),
        readersWaiting := 2, delivered := 0, doneChans := 1 } := by
  intro ts
  induction ts with
  | nil =>
    intro t _
    rfl
  | cons t' ts' ih =>
    intro t hchain
    rcases List.chain_cons.mp hchain with ⟨⟨hle, hlt⟩, hchain'⟩
    have hnotdue : ¬ (t + delay ≤ t') := by omega
    simp only [runEvents, onEvent, List.getLastD_cons]
    rw [if_neg hnotdue]
    exact ih t' hchain'

/-- C3: for every finite nonempty sequence of qualifying events in
which each event arrives strictly within the debounce window of the
previous one, the watch session produces exactly one completion on the
done channel, and the completion fires at the instant of the last event plus
the debounce delay — no earlier than the debounce duration measured
from the last event. -/
theorem watcher_debounce_single_completion (delay t : Nat) (ts : List Nat)
    (hchain : List.Chain (fun a b => a ≤ b ∧ b < a + delay) t ts) :
    (finalFire (runEvents delay sessionStart (t :: ts))).1.delivered = 1 ∧
    (finalFire (runEvents delay sessionStart (t :: ts))).2 =
      some (ts.getLastD t + delay) ∧
    ∀ ft, (finalFire (runEvents delay sessionStart (t :: ts))).2 = some ft →
      ts.getLastD t + delay ≤ ft := by
  have hrun : runEvents delay sessionStart (t :: ts) =
      { hasFs := true, closed := false, timer := some (ts.getLastD t + delay),
        readersWaiting := 2, delivered := 0, doneChans := 1 } := by
    show runEvents delay (onEvent delay sessionStart t) ts = _
    have honE : onEvent delay sessionStart t =
        { hasFs := true, closed := false, timer := some (t + delay),
          readersWaiting := 2, delivered := 0, doneChans := 1 } := rfl
    rw [honE]
    exact runEvents_chain delay ts t hchain
  rw [hrun]
  refine ⟨rfl, rfl, ?_⟩
  intro ft hft
  have : ft = ts.getLastD t + delay := by
    simpa [finalFire] using hft.symm
  omega

/-- C3 (witness): three write events at 0 ms, 50 ms and 100 ms with a
250 ms debounce yield exactly one completion, firing at 350 ms. -/
theorem watcher_debounce_single_completion_witness :
    (finalFire (runEvents 250 sessionStart [0, 50, 100])).1.delivered = 1 ∧
    (finalFire (runEvents 250 sessionStart [0, 50, 100])).2 = some 350 := by
  have hchain : List.Chain (fun a b => a ≤ b ∧ b < a + 250) 0 [50, 100] :=
    List.Chain.cons ⟨by omega, by omega⟩
      (List.Chain.cons ⟨by omega, by omega⟩ List.Chain.nil)
  have h := watcher_debounce_single_completion 250 0 [50, 100] hchain
  exact ⟨h.1, by simpa using h.2.1⟩

/-- C7: a watcher instance whose underlying filesystem watcher is
already set fails any further `Watch` call with
`WatcherAlreadyRunningError`, leaving the state untouched — no new
completion channel and no new subscription is created. -/
theorem watcherWatch_single_use (s : WState) (env : WatchEnv)
    (h : s.hasFs = true) :
    watcherWatch s env = (s, some .alreadyRunning) := by
  rw [watcherWatch, if_pos h]

/-- C7 (witness): re-watching an instance mid-session fails with
`WatcherAlreadyRunningError` and changes nothing. -/
theorem watcherWatch_single_use_witness :
    watcherWatch sessionStart ⟨true, some [], fun _ => false⟩ =
      (sessionStart, some .alreadyRunning) :=
  watcherWatch_single_use sessionStart ⟨true, some [], fun _ => false⟩ rfl

theorem closeTrace_notRunning :
    ∀ (n : Nat) (s : WState), s.hasFs = false →
      closeTrace s n = List.replicate n CloseOutcome.nilNotRunning := by
  intro n
  induction n with
  | zero => intro s _; rfl
  | succ n ih =>
    intro s h
    have hc : closeCall s = (s, .nilNotRunning) := by
      rw [closeCall, if_pos h]
    simp only [closeTrace, hc]
    rw [ih s h, List.replicate_succ]

/-- C8: `Close` is idempotent — on a not-running watcher (before
`Watch`, or after a previous `Close`) every call returns nil success,
and from any single-use-reachable state (never simultaneously running
and marked closed) a sequence of `Close` calls closes the completion
channel at most once and never panics. -/
theorem watcherClose_idempotent (s : WState) (n : Nat) (hinv : CloseInv s) :
    CloseOutcome.panicked ∉ closeTrace s n ∧
    (closeTrace s n).count CloseOutcome.closedOk ≤ 1 ∧
    (s.hasFs = false → ∀ o ∈ closeTrace s n, o = CloseOutcome.nilNotRunning) := by
  have hrep : ∀ m : Nat,
      (List.replicate m CloseOutcome.nilNotRunning).count CloseOutcome.closedOk = 0 := by
    intro m
    rw [List.count_replicate]
    split
    · rename_i hx
      exact absurd hx (by decide)
    · rfl
  cases hfs : s.hasFs with
  | false =>
    rw [closeTrace_notRunning n s hfs]
    refine ⟨?_, ?_, ?_⟩
    · intro hmem
      cases (List.mem_replicate.mp hmem).2
    · rw [hrep]
      omega
    · intro _ o hmem
      exact (List.mem_replicate.mp hmem).2
  | true =>
    have hcl : s.closed = false := hinv hfs
    cases n with
    | zero =>
      refine ⟨by simp [closeTrace], by simp [closeTrace], ?_⟩
      intro h
      exact Bool.noConfusion h
    | succ n =>
      have hc : (closeCall s).2 = CloseOutcome.closedOk ∧
          (closeCall s).1.hasFs = false := by
        rw [closeCall, if_neg (by simp [hfs]), if_neg (by simp [hcl])]
        exact ⟨rfl, rfl⟩
      have htr : closeTrace s (n + 1) =
          CloseOutcome.closedOk :: List.replicate n CloseOutcome.nilNotRunning := by
        simp only [closeTrace, hc.1]
        rw [closeTrace_notRunning n _ hc.2]
      rw [htr]
      refine ⟨?_, ?_, ?_⟩
      · intro hmem
        rcases List.mem_cons.mp hmem with h | h
        · cases h
        · cases (List.mem_replicate.mp h).2
      · rw [List.count_cons, hrep]
        simp
      · intro h
        exact Bool.noConfusion h

/-- C8 (witness): three consecutive `Close` calls on a live session —
one `closedOk`, then nil results, never a panic. -/
theorem watcherClose_idempotent_witness :
    CloseOutcome.panicked ∉ closeTrace sessionStart 3 ∧
    (closeTrace sessionStart 3).count CloseOutcome.closedOk ≤ 1 :=
  ⟨(watcherClose_idempotent sessionStart 3 (fun _ => rfl)).1,
   (watcherClose_idempotent sessionStart 3 (fun _ => rfl)).2.1⟩

/-- C9 (code evaluation): the done channel can be written twice within
one watch session.  A session has two concurrent readers of the
unbuffered `done` channel: the read inside `Watch` itself
(part_003 line 127) and the `<-watcher.Wait()` read of `runOnce`
(main.go line 120).  Schedule: the first debounce firing is consumed by
the read inside `Watch`; `Watch` returns, but the session is still open
(no `Close` yet) and the monitor goroutine keeps running; a second
qualifying event arms a new timer whose `end` finds the still-blocked
`Wait` reader ready and delivers a second completion — two writes in
one session.  The parts of the claim that do hold are evaluated too: an
`end` after `Close` marked the watcher closed is a no-op, and an `end`
with no ready reader drops the value instead of blocking. -/
theorem watcher_done_delivered_twice_per_session :
    (runOps sessionStart [SessionOp.endEvent, SessionOp.endEvent]).delivered
      = 2 ∧
    runOps sessionStart [SessionOp.closeOp, SessionOp.endEvent] =
      runOps sessionStart [SessionOp.closeOp] ∧
    endCall closedSession = closedSession := by
  exact ⟨rfl, rfl, rfl⟩

/-- C5 (code evaluation): with the command and the path both omitted —
no arguments at all, or only the `"--"` separator — `processArgs`
returns the empty command string, not the default build/run command
`go run .`; the subsequent `Start` then fails with
`EmptyCommandError` instead of running the default command, contrary to
the help text of the tool itself. -/
theorem processArgs_no_args_yields_empty_command (env : ArgsEnv) :
    processArgs env [] = some (env.cwd, "") ∧
    processArgs env ["--"] = some (env.cwd, "") ∧
    ("" : String) ≠ defaultCommand := by
  refine ⟨rfl, rfl, ?_⟩
  decide

end Godepmon

